import Mathlib

/-!
Shallow embedding of the scrabtopus crawler (src/main.rs):
a single-domain breadth-first crawler with a header-delimited
section extractor and a domain/path link filter.

External capabilities (HTTP transport, HTML parsing, URL resolution)
are passed in as parameters, as in the source where they come from
the reqwest / scraper / url crates.
-/

/-! ## String utilities

Rust's `str::trim`, `Vec::join(" ")`, `str::to_lowercase` and
`str::contains`, modelled on the character list of a `String`.
URL paths are percent-encoded ASCII, so ASCII lowercasing is exact
for the inputs the filter sees.
-/

/-- Whitespace test used by `trim` (ASCII whitespace as in
Rust `char::is_whitespace` restricted to the ASCII range, plain space
and the usual control whitespace). -/
def isWsChar (c : Char) : Bool :=
  c = ' ' || c = '\t' || c = '\n' || c = '\r' || c = '\x0b' || c = '\x0c'

/-- Drop trailing characters satisfying `p` (the tail half of Rust `trim`). -/
def dropEndWhile (p : Char → Bool) : List Char → List Char
  | [] => []
  | c :: cs =>
    let r := dropEndWhile p cs
    if r.isEmpty then (if p c then [] else [c]) else c :: r

/-- Rust `str::trim` on a character list: strip leading and trailing whitespace. -/
def trimChars (l : List Char) : List Char :=
  dropEndWhile isWsChar (l.dropWhile isWsChar)

/-- Rust `str::trim().to_string()`. -/
def rustTrim (s : String) : String :=
  String.mk (trimChars s.data)

/-- Rust `Vec::<String>::join(" ")`: interleave a single space. -/
def joinFragments : List String → String
  | [] => ""
  | [s] => s
  | s :: s2 :: rest => s ++ " " ++ joinFragments (s2 :: rest)

/-- ASCII lowercasing of one character (Rust `to_lowercase` on the
ASCII alphabet; URL paths are percent-encoded ASCII). -/
def lowerChar (c : Char) : Char :=
  if 'A' ≤ c ∧ c ≤ 'Z' then Char.ofNat (c.toNat + 32) else c

/-- Rust `str::to_lowercase` on the character list of a string. -/
def lowerStr (s : String) : String :=
  String.mk (s.data.map lowerChar)

/-- Does `hay` start with `pat`? (helper for substring containment). -/
def startsWithL (pat hay : List Char) : Bool :=
  match pat, hay with
  | [], _ => true
  | _ :: _, [] => false
  | p :: ps, h :: hs => p = h && startsWithL ps hs

/-- Does `hay` contain `pat` as a contiguous sublist? -/
def hasSubL (pat : List Char) : List Char → Bool
  | [] => startsWithL pat []
  | h :: hs => startsWithL pat (h :: hs) || hasSubL pat hs

/-- Rust `str::contains(pat)`: substring containment. -/
def strContains (s pat : String) : Bool :=
  hasSubL pat.data s.data

/-! ## DOM model

`scraper::Html` parses bytes into a node tree; we model element and
text nodes.  Selectors in the source are tag-name (and `a[href]`
attribute) selectors, modelled as predicates on nodes.
-/

/-- A DOM node: a text node or an element with tag, attributes and children. -/
inductive Node where
  | text (s : String)
  | element (tag : String) (attrs : List (String × String)) (children : List Node)

/-- A parsed document: the forest of top-level nodes. -/
def Document := List Node

mutual

/-- All text fragments under a node in document order
(`ElementRef::text()` collected into a `Vec`). -/
def nodeTexts : Node → List String
  | .text s => [s]
  | .element _ _ cs => listTexts cs

def listTexts : List Node → List String
  | [] => []
  | n :: ns => nodeTexts n ++ listTexts ns

end

mutual

/-- The node itself (if an element) followed by all element
descendants, in document (pre-)order. -/
def selfAndElems : Node → List Node
  | .text _ => []
  | .element t a cs => Node.element t a cs :: elemsOfList cs

def elemsOfList : List Node → List Node
  | [] => []
  | n :: ns => selfAndElems n ++ elemsOfList ns

end

/-- Element descendants of a node, excluding the node itself, in
document order (`ElementRef::select` traversal). -/
def descElems : Node → List Node
  | .text _ => []
  | .element _ _ cs => elemsOfList cs

/-- Attribute lookup, `element.value().attr(key)`. -/
def getAttr : Node → String → Option String
  | .element _ attrs _, key => (attrs.find? (fun p => p.1 = key)).map (fun p => p.2)
  | .text _, _ => none

/-- Tag-name selector: matches an element whose tag is in `tags`. -/
def matchesTags (tags : List String) : Node → Bool
  | .element t _ _ => tags.contains t
  | .text _ => false

/-- Source `document.select("main").next()`: first `main` element in document order. -/
def findMain (doc : Document) : Option Node :=
  (elemsOfList doc).find? (matchesTags ["main"])

/-- Source `element.text().collect::<Vec<_>>().join(" ").trim().to_string()`:
the text normalization applied to every extracted string. -/
def elemText (n : Node) : String :=
  rustTrim (joinFragments (nodeTexts n))

/-- Spec-level normalization on one string: join the fragment list
`[x]` with single spaces, then trim. -/
def normalizeText (x : String) : String :=
  rustTrim (joinFragments [x])

/-! ## Section extractor (`scrape_page`)

`scrape_page` walks every header inside `<main>` and collects the
paragraph/list content of the sibling run up to the next header.
The element predicates of the source's selectors are gathered in a
`Preds` record; `srcPreds` is the instantiation the source hardcodes.
-/

/-- Output content block: `Paragraph(String)` or `List { lists }`. -/
inductive Content where
  | paragraph (text : String)
  | list (lists : List String)
deriving DecidableEq, Repr

/-- A titled section: header text plus its content blocks. -/
structure Section where
  header : String
  content : List Content
deriving DecidableEq, Repr

/-- One scraped page. -/
structure Page where
  url : String
  title : String
  sections : List Section
deriving DecidableEq, Repr

/-- The element predicates the section extractor consumes
(the source instantiates them with tag selectors, see `srcPreds`). -/
structure Preds where
  isHeader : Node → Bool
  isPara : Node → Bool
  isList : Node → Bool
  isItem : Node → Bool
  isExcluded : Node → Bool

/-- The selector set hardcoded in `scrape_page`:
`h1, h2, h3, h4` / `p` / `ul, ol` / `li` /
`button, nav, footer, a, script, style, svg, img`. -/
def srcPreds : Preds where
  isHeader := matchesTags ["h1", "h2", "h3", "h4"]
  isPara := matchesTags ["p"]
  isList := matchesTags ["ul", "ol"]
  isItem := matchesTags ["li"]
  isExcluded := matchesTags ["button", "nav", "footer", "a", "script", "style", "svg", "img"]

/-- Paragraph extraction for one sibling: if the paragraph selector
matches and the normalized text is non-empty, one `Paragraph` block. -/
def paraBlock (P : Preds) (e : Node) : List Content :=
  if P.isPara e then
    let t := elemText e
    if t.isEmpty then [] else [Content.paragraph t]
  else []

/-- The non-empty normalized texts of the `li` descendants of a list
element (`element.select(&list_item_selector)` loop). -/
def listItemsOf (P : Preds) (e : Node) : List String :=
  ((descElems e).filter P.isItem).filterMap fun li =>
    let t := elemText li
    if t.isEmpty then none else some t

/-- List extraction for one sibling: if the list selector matches and
the collected item list is non-empty, one `List` block. -/
def listBlock (P : Preds) (e : Node) : List Content :=
  if P.isList e then
    let items := listItemsOf P e
    if items.isEmpty then [] else [Content.list items]
  else []

/-- Blocks contributed by a single sibling element: the paragraph check
then the list check, applied independently (two sequential `if`s). -/
def siblingBlocks (P : Preds) (e : Node) : List Content :=
  paraBlock P e ++ listBlock P e

/-- The sibling walk after a header: stop at the next header, skip
excluded elements and non-element nodes, otherwise append the
sibling's blocks. -/
def collectContent (P : Preds) : List Node → List Content
  | [] => []
  | Node.text _ :: rest => collectContent P rest
  | Node.element t a cs :: rest =>
    if P.isHeader (Node.element t a cs) then []
    else if P.isExcluded (Node.element t a cs) then collectContent P rest
    else siblingBlocks P (Node.element t a cs) ++ collectContent P rest

mutual

/-- Every header element in a subtree in document order, paired with
its list of following siblings (the run `header.next_sibling()` walks). -/
def headerCtxs : Node → List (Node × List Node)
  | .text _ => []
  | .element _ _ cs => headerCtxsList cs

def headerCtxsList : List Node → List (Node × List Node)
  | [] => []
  | n :: ns =>
    (if srcPreds.isHeader n then [(n, ns)] else []) ++ headerCtxs n ++ headerCtxsList ns

end

/-- Body of `scrape_page`: title from the first header inside `<main>`,
one section per non-empty header, empty sections discarded; a page
with empty title and no sections when `<main>` is absent. -/
def scrapePageCore (doc : Document) (urlStr : String) : Page :=
  match findMain doc with
  | none => { url := urlStr, title := "", sections := [] }
  | some m =>
    let hs := headerCtxs m
    let title :=
      match hs.head? with
      | none => ""
      | some hp => let t := elemText hp.1; if t.isEmpty then "" else t
    let sections := hs.filterMap fun hp =>
      let ht := elemText hp.1
      if ht.isEmpty then none
      else
        let c := collectContent srcPreds hp.2
        if c.isEmpty then none else some { header := ht, content := c }
    { url := urlStr, title := title, sections := sections }

/-- Wrapper `scrape_page` as in the source: a `Result` that is always `Ok`. -/
def scrape_page (doc : Document) (urlStr : String) : Except String Page :=
  Except.ok (scrapePageCore doc urlStr)

/-- The spec's worked example document:
`<main><h1>Intro</h1><p>Hello</p><h2>Links</h2><a href="/policy">P</a><a href="/about">A</a></main>`. -/
def docEx : Document :=
  [Node.element "html" [] [Node.element "main" []
    [Node.element "h1" [] [Node.text "Intro"],
     Node.element "p" [] [Node.text "Hello"],
     Node.element "h2" [] [Node.text "Links"],
     Node.element "a" [("href", "/policy")] [Node.text "P"],
     Node.element "a" [("href", "/about")] [Node.text "A"]]]]

/-! ## URL model and the link extractor (`extract_internal_links`)

`url::Url` is modelled by its observable parts: scheme, optional host
(with a flag telling whether the host is a domain, since
`Url::domain()` answers `None` for IP hosts), path and query.
Relative resolution (`Url::join`) is the external `url`-crate
capability and is passed in as a `resolve` function.
-/

/-- Model of `url::Url`. -/
structure Url where
  scheme : String
  host : Option String
  hostIsDomain : Bool
  path : String
  query : Option String
deriving DecidableEq, Repr

/-- Model of `Url::domain()`: the host when it is a domain name, else `None`. -/
def Url.domain (u : Url) : Option String :=
  if u.hostIsDomain then u.host else none

/-- Model of `Url::as_str()`: the serialization used as the key of `visited`. -/
def Url.toStr (u : Url) : String :=
  u.scheme ++ "://" ++ (match u.host with | none => "" | some h => h) ++ u.path ++
    (match u.query with | none => "" | some q => "?" ++ q)

/-- Comparison backing `Vec::<Url>::sort()` (the `url` crate orders by
serialization). -/
def urlLe (u v : Url) : Bool :=
  decide (u.toStr ≤ v.toStr)

/-- Ordered insertion (one step of the sort). -/
def insUrl (x : Url) : List Url → List Url
  | [] => [x]
  | y :: ys => if urlLe x y then x :: y :: ys else y :: insUrl x ys

/-- Rust `links.sort()`: sort by serialization. -/
def sortUrls : List Url → List Url
  | [] => []
  | x :: xs => insUrl x (sortUrls xs)

/-- Rust `links.dedup()`: collapse runs of consecutive equal URLs. -/
def dedupConsec : List Url → List Url
  | [] => []
  | [a] => [a]
  | a :: b :: rest => if a = b then dedupConsec (b :: rest) else a :: dedupConsec (b :: rest)

/-- Anchor elements with an `href` attribute inside a subtree
(`main_content.select("a[href]")`). -/
def anchorsIn (m : Node) : List Node :=
  (descElems m).filter fun e => matchesTags ["a"] e && (getAttr e "href").isSome

/-- The per-anchor pipeline of `extract_internal_links`: resolve the
href against the base, require equal domains, reject denylisted paths. -/
def linkOf (resolve : Url → String → Option Url) (base : Url) (e : Node) : Option Url :=
  match getAttr e "href" with
  | none => none
  | some href =>
    match resolve base href with
    | none => none
    | some r =>
      match base.domain with
      | none => none
      | some d =>
        if r.domain = some d then
          let p := lowerStr r.path
          if !strContains p "policy" && !strContains p "terms" && !strContains p "cookie"
              && !strContains p "privacy" && !strContains p "license" then
            some r
          else none
        else none

/-- Body of `extract_internal_links`: collect the surviving links from
the anchors under `<main>`, then `sort` and `dedup`. -/
def extractLinksCore (resolve : Url → String → Option Url) (doc : Document) (base : Url) :
    List Url :=
  let links :=
    match findMain doc with
    | none => []
    | some m => (anchorsIn m).filterMap (linkOf resolve base)
  dedupConsec (sortUrls links)

/-- Wrapper `extract_internal_links` as in the source: a `Result` that is
always `Ok`. -/
def extract_internal_links (resolve : Url → String → Option Url) (doc : Document)
    (base : Url) : Except String (List Url) :=
  Except.ok (extractLinksCore resolve doc base)

/-- A concrete seed URL for the witnesses. -/
def seedU : Url := { scheme := "https", host := some "ex.org", hostIsDomain := true,
                     path := "/", query := none }

/-- A concrete resolver for the witnesses: absolute hrefs are refused,
path hrefs resolve against the base. -/
def resolveEx (base : Url) (href : String) : Option Url :=
  if strContains href "://" then none
  else some { base with path := href, query := none }

/-- The one link `extractLinksCore resolveEx docEx seedU` keeps. -/
def aboutU : Url := { scheme := "https", host := some "ex.org", hostIsDomain := true,
                      path := "/about", query := none }

/-! ## Crawl frontier (the loop of `main`)

The blocking `client.get(..).send()` plus `response.text()` plus
`Html::parse_document` pipeline is one external capability
`fetch : Url → FetchResult` (parsing never fails).  The loop state
carries the queue, the visited set (keyed by `Url::as_str`), the
accumulated pages and the counter, plus two ghost logs: every URL a
request was issued for (`fetchLog`) and every link the link extractor
returned during the run (`linkLog`).
-/

/-- Outcome of fetching one URL: request error, non-success status,
body read error, or a parsed document. -/
inductive FetchResult where
  | transportErr
  | statusErr (code : Nat)
  | bodyErr
  | success (doc : Document)

/-- The loop state of `main`, with ghost logs for the proofs. -/
structure CrawlState where
  queue : List Url
  visited : List String
  pages : List Page
  pagesScraped : Nat
  fetchLog : List Url
  linkLog : List Url
deriving DecidableEq, Repr

/-- Initial state: the seed alone in the queue, everything else empty. -/
def initState (seed : Url) : CrawlState :=
  { queue := [seed], visited := [], pages := [], pagesScraped := 0,
    fetchLog := [], linkLog := [] }

/-- The enqueue loop: append each link that is neither visited nor
already in the (growing) queue. -/
def enqueueLinks (visited : List String) (queue : List Url) : List Url → List Url
  | [] => queue
  | l :: ls =>
    if l.toStr ∈ visited ∨ l ∈ queue then enqueueLinks visited queue ls
    else enqueueLinks visited (queue ++ [l]) ls

/-- One loop iteration after the pop and the cap check: skip if
visited; otherwise fetch, on success scrape and enqueue the new
links, and in every case mark the URL visited. -/
def processUrl (resolve : Url → String → Option Url) (fetch : Url → FetchResult)
    (st : CrawlState) (url : Url) : CrawlState :=
  if url.toStr ∈ st.visited then st
  else
    let st0 := { st with fetchLog := st.fetchLog ++ [url] }
    let st1 :=
      match fetch url with
      | FetchResult.success doc =>
        let st2 :=
          match scrape_page doc url.toStr with
          | Except.ok page =>
            { st0 with pages := st0.pages ++ [page], pagesScraped := st0.pagesScraped + 1 }
          | Except.error _ => st0
        match extract_internal_links resolve doc url with
        | Except.ok links =>
          { st2 with queue := enqueueLinks st2.visited st2.queue links,
                     linkLog := st2.linkLog ++ links }
        | Except.error _ => st2
      | _ => st0
    { st1 with visited := url.toStr :: st1.visited }

/-- The `while let Some(current_url) = queue.pop_front()` loop, with
fuel: pop, break when the cap is reached, else process the URL.
Returns `none` only when the fuel runs out. -/
def crawlLoop (resolve : Url → String → Option Url) (fetch : Url → FetchResult)
    (maxPages : Nat) : Nat → CrawlState → Option CrawlState
  | 0, _ => none
  | fuel + 1, st =>
    match st.queue with
    | [] => some st
    | url :: rest =>
      if maxPages ≤ st.pagesScraped then some { st with queue := rest }
      else crawlLoop resolve fetch maxPages fuel
        (processUrl resolve fetch { st with queue := rest } url)

/-- The states a crawl run passes through, from `st₀` at the loop
iteration boundaries, including the state left by the cap break. -/
inductive Reachable (resolve : Url → String → Option Url) (fetch : Url → FetchResult)
    (maxPages : Nat) (st₀ : CrawlState) : CrawlState → Prop where
  | refl : Reachable resolve fetch maxPages st₀ st₀
  | step (st : CrawlState) (url : Url) (rest : List Url) :
      Reachable resolve fetch maxPages st₀ st → st.queue = url :: rest →
      st.pagesScraped < maxPages →
      Reachable resolve fetch maxPages st₀ (processUrl resolve fetch { st with queue := rest } url)
  | capStop (st : CrawlState) (url : Url) (rest : List Url) :
      Reachable resolve fetch maxPages st₀ st → st.queue = url :: rest →
      maxPages ≤ st.pagesScraped →
      Reachable resolve fetch maxPages st₀ { st with queue := rest }

/-- A concrete fetch capability for the witnesses: the seed serves
`docEx`, everything else fails at the transport. -/
def fetchEx (u : Url) : FetchResult :=
  if u = seedU then FetchResult.success docEx else FetchResult.transportErr

/-- A concrete fetch capability that always answers HTTP 500. -/
def fetch500 (_ : Url) : FetchResult := FetchResult.statusErr 500

/-- The state in which the crawl of `seedU` under `fetchEx` with
`max_pages = 1` terminates (the cap break fires on the second pop). -/
def stFinal : CrawlState :=
  { queue := [],
    visited := ["https://ex.org/"],
    pages := [{ url := "https://ex.org/", title := "Intro",
                sections := [{ header := "Intro", content := [Content.paragraph "Hello"] }] }],
    pagesScraped := 1,
    fetchLog := [seedU],
    linkLog := [aboutU] }

/-- A state whose visited set already contains the seed's key. -/
def stVis : CrawlState :=
  { initState seedU with visited := [Url.toStr seedU] }

/-- Overlapping predicates for the dual-match scenario: every element
counts both as a paragraph and as a list. -/
def dualPreds : Preds where
  isHeader := fun _ => false
  isPara := fun _ => true
  isList := fun _ => true
  isItem := matchesTags ["li"]
  isExcluded := fun _ => false

/-- A sibling with both paragraph-shaped text and a list item. -/
def dualElem : Node :=
  Node.element "x" [] [Node.element "li" [] [Node.text "item"], Node.text "hi"]

/-- A document with no `<main>` region. -/
def docNoMain : Document :=
  [Node.element "html" [] [Node.element "div" [] [Node.text "stray"]]]

/-- The single section the extractor produces from `docEx`. -/
def sIntro : Section := { header := "Intro", content := [Content.paragraph "Hello"] }

/-! ## Lemmas: text normalization -/

theorem dropWhile_head_false (p : Char → Bool) :
    ∀ (l : List Char) (c : Char) (cs : List Char), l.dropWhile p = c :: cs → p c = false
  | [], c, cs, h => by simp [List.dropWhile] at h
  | a :: t, c, cs, h => by
    by_cases ha : p a
    · rw [List.dropWhile_cons, if_pos ha] at h
      exact dropWhile_head_false p t c cs h
    · rw [List.dropWhile_cons, if_neg ha] at h
      cases h
      simpa using ha

theorem dropWhile_dropEndWhile (p : Char → Bool) (l : List Char)
    (hl : l.dropWhile p = l) : (dropEndWhile p l).dropWhile p = dropEndWhile p l := by
  cases l with
  | nil => simp [dropEndWhile]
  | cons c cs =>
    have hc : p c = false := dropWhile_head_false p (c :: cs) c cs hl
    simp only [dropEndWhile]
    by_cases hr : (dropEndWhile p cs).isEmpty
    · simp [hr, hc, List.dropWhile]
    · simp [hr, hc, List.dropWhile]

theorem dropEndWhile_idem (p : Char → Bool) :
    ∀ l : List Char, dropEndWhile p (dropEndWhile p l) = dropEndWhile p l
  | [] => by simp [dropEndWhile]
  | c :: cs => by
    have ih := dropEndWhile_idem p cs
    simp only [dropEndWhile]
    by_cases hr : (dropEndWhile p cs).isEmpty
    · by_cases hcp : p c
      · simp [hr, hcp, dropEndWhile]
      · simp [hr, hcp, dropEndWhile]
    · simp only [hr, if_neg, Bool.false_eq_true, not_false_eq_true, if_false]
      simp [dropEndWhile, ih, hr]

theorem trimChars_idem (l : List Char) : trimChars (trimChars l) = trimChars l := by
  unfold trimChars
  rw [dropWhile_dropEndWhile isWsChar (l.dropWhile isWsChar) (List.dropWhile_idempotent isWsChar l)]
  exact dropEndWhile_idem isWsChar _

theorem rustTrim_idem (s : String) : rustTrim (rustTrim s) = rustTrim s := by
  unfold rustTrim
  rw [show (String.mk (trimChars s.data)).data = trimChars s.data from rfl, trimChars_idem]

/-! ## Lemmas: link extraction -/

theorem domain_eq_some {u : Url} {d : String} (h : u.domain = some d) :
    u.hostIsDomain = true ∧ u.host = some d := by
  unfold Url.domain at h
  by_cases hb : u.hostIsDomain
  · rw [if_pos hb] at h
    exact ⟨hb, h⟩
  · rw [if_neg hb] at h
    cases h

theorem linkOf_props (resolve : Url → String → Option Url) (base : Url) (e : Node) (r : Url)
    (h : linkOf resolve base e = some r) :
    r.host = base.host ∧
    strContains (lowerStr r.path) "policy" = false ∧
    strContains (lowerStr r.path) "terms" = false ∧
    strContains (lowerStr r.path) "cookie" = false ∧
    strContains (lowerStr r.path) "privacy" = false ∧
    strContains (lowerStr r.path) "license" = false := by
  unfold linkOf at h
  cases hga : getAttr e "href" with
  | none => simp only [hga] at h; exact Option.noConfusion h
  | some href =>
    simp only [hga] at h
    cases hre : resolve base href with
    | none => simp only [hre] at h; exact Option.noConfusion h
    | some r0 =>
      simp only [hre] at h
      cases hbd : base.domain with
      | none => simp only [hbd] at h; exact Option.noConfusion h
      | some d =>
        simp only [hbd] at h
        by_cases hrd : r0.domain = some d
        · rw [if_pos hrd] at h
          by_cases hden :
              (!strContains (lowerStr r0.path) "policy" &&
                !strContains (lowerStr r0.path) "terms" &&
                !strContains (lowerStr r0.path) "cookie" &&
                !strContains (lowerStr r0.path) "privacy" &&
                !strContains (lowerStr r0.path) "license") = true
          · rw [if_pos hden] at h
            have hrr : r0 = r := Option.some.inj h
            subst hrr
            simp only [Bool.and_eq_true, Bool.not_eq_true'] at hden
            obtain ⟨⟨⟨⟨h1, h2⟩, h3⟩, h4⟩, h5⟩ := hden
            refine ⟨?_, h1, h2, h3, h4, h5⟩
            have hr := domain_eq_some hrd
            have hb := domain_eq_some hbd
            rw [hr.2, hb.2]
          · rw [if_neg hden] at h
            exact Option.noConfusion h
        · rw [if_neg hrd] at h
          exact Option.noConfusion h

theorem mem_insUrl (x y : Url) : ∀ l : List Url, x ∈ insUrl y l → x = y ∨ x ∈ l
  | [], h => by simpa [insUrl] using h
  | z :: zs, h => by
    unfold insUrl at h
    by_cases hle : urlLe y z
    · rw [if_pos hle] at h
      simpa using h
    · rw [if_neg hle] at h
      rcases List.mem_cons.mp h with h | h
      · exact Or.inr (by simp [h])
      · rcases mem_insUrl x y zs h with h | h
        · exact Or.inl h
        · exact Or.inr (List.mem_cons_of_mem z h)

theorem mem_sortUrls (x : Url) : ∀ l : List Url, x ∈ sortUrls l → x ∈ l
  | [], h => by simp [sortUrls] at h
  | z :: zs, h => by
    unfold sortUrls at h
    rcases mem_insUrl x z (sortUrls zs) h with h | h
    · simp [h]
    · exact List.mem_cons_of_mem z (mem_sortUrls x zs h)

theorem mem_dedupConsec (x : Url) : ∀ l : List Url, x ∈ dedupConsec l → x ∈ l
  | [], h => by simp [dedupConsec] at h
  | [a], h => by simpa [dedupConsec] using h
  | a :: b :: rest, h => by
    unfold dedupConsec at h
    by_cases hab : a = b
    · rw [if_pos hab] at h
      exact List.mem_cons_of_mem a (mem_dedupConsec x (b :: rest) h)
    · rw [if_neg hab] at h
      rcases List.mem_cons.mp h with h | h
      · simp [h]
      · exact List.mem_cons_of_mem a (mem_dedupConsec x (b :: rest) h)

theorem mem_extractLinksCore (resolve : Url → String → Option Url) (doc : Document)
    (base : Url) (link : Url) (h : link ∈ extractLinksCore resolve doc base) :
    ∃ e, linkOf resolve base e = some link := by
  unfold extractLinksCore at h
  cases hm : findMain doc with
  | none =>
    rw [hm] at h
    simp [dedupConsec, sortUrls] at h
  | some m =>
    rw [hm] at h
    have h1 := mem_sortUrls link _ (mem_dedupConsec link _ h)
    rcases List.mem_filterMap.mp h1 with ⟨e, _, he⟩
    exact ⟨e, he⟩

/-! ## Lemmas: the crawl loop -/

theorem mem_enqueueLinks (visited : List String) :
    ∀ (links : List Url) (queue : List Url) (x : Url),
      x ∈ enqueueLinks visited queue links → x ∈ queue ∨ x ∈ links
  | [], q, x, h => by simpa [enqueueLinks] using h
  | l :: ls, q, x, h => by
    unfold enqueueLinks at h
    by_cases hg : l.toStr ∈ visited ∨ l ∈ q
    · rw [if_pos hg] at h
      rcases mem_enqueueLinks visited ls q x h with h | h
      · exact Or.inl h
      · exact Or.inr (List.mem_cons_of_mem l h)
    · rw [if_neg hg] at h
      rcases mem_enqueueLinks visited ls (q ++ [l]) x h with h | h
      · rcases List.mem_append.mp h with h | h
        · exact Or.inl h
        · exact Or.inr (by simpa using Or.inl (by simpa using h))
      · exact Or.inr (List.mem_cons_of_mem l h)

theorem enqueueLinks_nodup (visited : List String) :
    ∀ (links : List Url) (queue : List Url), queue.Nodup → (enqueueLinks visited queue links).Nodup
  | [], q, hq => by simpa [enqueueLinks] using hq
  | l :: ls, q, hq => by
    unfold enqueueLinks
    by_cases hg : l.toStr ∈ visited ∨ l ∈ q
    · rw [if_pos hg]
      exact enqueueLinks_nodup visited ls q hq
    · rw [if_neg hg]
      refine enqueueLinks_nodup visited ls (q ++ [l]) ?_
      have hl : l ∉ q := fun hmem => hg (Or.inr hmem)
      simp [List.nodup_append, hq, hl]

theorem processUrl_cases (resolve : Url → String → Option Url) (fetch : Url → FetchResult)
    (st : CrawlState) (url : Url) :
    (url.toStr ∈ st.visited ∧ processUrl resolve fetch st url = st) ∨
    (url.toStr ∉ st.visited ∧ ∃ doc,
      fetch url = FetchResult.success doc ∧
      processUrl resolve fetch st url =
        { queue := enqueueLinks st.visited st.queue (extractLinksCore resolve doc url),
          visited := url.toStr :: st.visited,
          pages := st.pages ++ [scrapePageCore doc url.toStr],
          pagesScraped := st.pagesScraped + 1,
          fetchLog := st.fetchLog ++ [url],
          linkLog := st.linkLog ++ extractLinksCore resolve doc url }) ∨
    (url.toStr ∉ st.visited ∧ (∀ d, fetch url ≠ FetchResult.success d) ∧
      processUrl resolve fetch st url =
        { st with visited := url.toStr :: st.visited, fetchLog := st.fetchLog ++ [url] }) := by
  by_cases hv : url.toStr ∈ st.visited
  · exact Or.inl ⟨hv, by simp [processUrl, hv]⟩
  · cases hf : fetch url with
    | success doc =>
      refine Or.inr (Or.inl ⟨hv, doc, rfl, ?_⟩)
      simp [processUrl, hv, hf, scrape_page, extract_internal_links]
    | transportErr =>
      refine Or.inr (Or.inr ⟨hv, fun d hd => FetchResult.noConfusion hd, ?_⟩)
      simp [processUrl, hv, hf]
    | statusErr c =>
      refine Or.inr (Or.inr ⟨hv, fun d hd => FetchResult.noConfusion hd, ?_⟩)
      simp [processUrl, hv, hf]
    | bodyErr =>
      refine Or.inr (Or.inr ⟨hv, fun d hd => FetchResult.noConfusion hd, ?_⟩)
      simp [processUrl, hv, hf]

theorem reachable_inv (resolve : Url → String → Option Url) (fetch : Url → FetchResult)
    (maxPages : Nat) (st₀ : CrawlState) (P : CrawlState → Prop)
    (hstep : ∀ st url rest, P st → st.queue = url :: rest → st.pagesScraped < maxPages →
      P (processUrl resolve fetch { st with queue := rest } url))
    (hpop : ∀ st url rest, P st → st.queue = url :: rest → P { st with queue := rest })
    (h0 : P st₀) :
    ∀ st, Reachable resolve fetch maxPages st₀ st → P st := by
  intro st h
  induction h with
  | refl => exact h0
  | step st url rest hr hq hc ih => exact hstep st url rest ih hq hc
  | capStop st url rest hr hq hc ih => exact hpop st url rest ih hq

theorem reachable_trans (resolve : Url → String → Option Url) (fetch : Url → FetchResult)
    (maxPages : Nat) (a b c : CrawlState) (h1 : Reachable resolve fetch maxPages a b)
    (h2 : Reachable resolve fetch maxPages b c) : Reachable resolve fetch maxPages a c := by
  induction h2 with
  | refl => exact h1
  | step st url rest hr hq hc ih => exact Reachable.step st url rest ih hq hc
  | capStop st url rest hr hq hc ih => exact Reachable.capStop st url rest ih hq hc

theorem crawlLoop_reachable (resolve : Url → String → Option Url) (fetch : Url → FetchResult)
    (maxPages : Nat) :
    ∀ (fuel : Nat) (st st' : CrawlState),
      crawlLoop resolve fetch maxPages fuel st = some st' →
      Reachable resolve fetch maxPages st st'
  | 0, st, st', h => by simp [crawlLoop] at h
  | fuel + 1, st, st', h => by
    unfold crawlLoop at h
    cases hq : st.queue with
    | nil =>
      simp only [hq] at h
      cases h
      exact Reachable.refl
    | cons url rest =>
      simp only [hq] at h
      by_cases hc : maxPages ≤ st.pagesScraped
      · rw [if_pos hc] at h
        cases h
        exact Reachable.capStop st url rest Reachable.refl hq hc
      · rw [if_neg hc] at h
        refine reachable_trans resolve fetch maxPages _ _ _
          (Reachable.step st url rest Reachable.refl hq (Nat.lt_of_not_le hc)) ?_
        exact crawlLoop_reachable resolve fetch maxPages fuel _ st' h

/-! ## Claims -/

/-- C9: the text normalization used for every extracted string — join
the text fragments with a single space, then trim — is idempotent:
normalizing an already-normalized string changes nothing. -/
theorem claim_normalize_idem (x : String) :
    normalizeText (normalizeText x) = normalizeText x :=
  rustTrim_idem x

/-- C8: the section extractor never fails: `scrape_page` always
returns `Ok`, and on a document without a `<main>` region the page it
returns has an empty title and an empty section sequence. -/
theorem claim_scrape_never_fails (doc : Document) (urlStr : String) :
    scrape_page doc urlStr = Except.ok (scrapePageCore doc urlStr) ∧
    (findMain doc = none →
      scrape_page doc urlStr = Except.ok { url := urlStr, title := "", sections := [] }) := by
  refine ⟨rfl, fun h => ?_⟩
  unfold scrape_page scrapePageCore
  simp only [h]

theorem claim_scrape_never_fails_w :
    scrape_page docNoMain "u" = Except.ok (scrapePageCore docNoMain "u") ∧
    scrape_page docNoMain "u" = Except.ok { url := "u", title := "", sections := [] } :=
  ⟨(claim_scrape_never_fails docNoMain "u").1,
   (claim_scrape_never_fails docNoMain "u").2 rfl⟩

/-- C4: every `Section` that appears in a scraped page has a non-empty
content sequence — a section that collected no blocks is discarded. -/
theorem claim_section_content_nonempty (doc : Document) (urlStr : String) (s : Section)
    (hs : s ∈ (scrapePageCore doc urlStr).sections) : s.content ≠ [] := by
  unfold scrapePageCore at hs
  cases hm : findMain doc with
  | none => simp only [hm] at hs; simp at hs
  | some m =>
    simp only [hm] at hs
    rcases List.mem_filterMap.mp hs with ⟨hp, _, hf⟩
    by_cases hht : (elemText hp.1).isEmpty = true
    · rw [if_pos hht] at hf
      exact Option.noConfusion hf
    · rw [if_neg hht] at hf
      by_cases hc : (collectContent srcPreds hp.2).isEmpty = true
      · rw [if_pos hc] at hf
        exact Option.noConfusion hf
      · rw [if_neg hc] at hf
        have hsec := Option.some.inj hf
        subst hsec
        intro hnil
        exact hc (by rw [show collectContent srcPreds hp.2 = [] from hnil]; rfl)

theorem claim_section_content_nonempty_w : sIntro.content ≠ [] :=
  claim_section_content_nonempty docEx "u" sIntro (by decide)

/-- C5: a sibling element that matches both the paragraph predicate
and the list predicate, with non-empty text and a non-empty item
list, contributes both a `Paragraph` and a `List` block to the current
section, with the `Paragraph` appended first. -/
theorem claim_dual_match (P : Preds) (tag : String) (attrs : List (String × String))
    (cs rest : List Node)
    (hh : P.isHeader (Node.element tag attrs cs) = false)
    (hx : P.isExcluded (Node.element tag attrs cs) = false)
    (hp : P.isPara (Node.element tag attrs cs) = true)
    (hl : P.isList (Node.element tag attrs cs) = true)
    (ht : (elemText (Node.element tag attrs cs)).isEmpty = false)
    (hi : (listItemsOf P (Node.element tag attrs cs)).isEmpty = false) :
    collectContent P (Node.element tag attrs cs :: rest) =
      Content.paragraph (elemText (Node.element tag attrs cs)) ::
        Content.list (listItemsOf P (Node.element tag attrs cs)) ::
        collectContent P rest := by
  simp [collectContent, siblingBlocks, paraBlock, listBlock, hh, hx, hp, hl, ht, hi]

theorem claim_dual_match_w :
    collectContent dualPreds (dualElem :: []) =
      Content.paragraph (elemText dualElem) ::
        Content.list (listItemsOf dualPreds dualElem) :: collectContent dualPreds [] :=
  claim_dual_match dualPreds "x" [] [Node.element "li" [] [Node.text "item"], Node.text "hi"]
    [] (by decide) (by decide) (by decide) (by decide) (by decide) (by decide)

/-- C7: no link the link extractor returns has a lowercased path
containing "policy", "terms", "cookie", "privacy" or "license". -/
theorem claim_denylist (resolve : Url → String → Option Url) (doc : Document) (base : Url)
    (link : Url) (h : link ∈ extractLinksCore resolve doc base) :
    strContains (lowerStr link.path) "policy" = false ∧
    strContains (lowerStr link.path) "terms" = false ∧
    strContains (lowerStr link.path) "cookie" = false ∧
    strContains (lowerStr link.path) "privacy" = false ∧
    strContains (lowerStr link.path) "license" = false := by
  rcases mem_extractLinksCore resolve doc base link h with ⟨e, he⟩
  exact (linkOf_props resolve base e link he).2

theorem claim_denylist_w :
    strContains (lowerStr aboutU.path) "policy" = false ∧
    strContains (lowerStr aboutU.path) "terms" = false ∧
    strContains (lowerStr aboutU.path) "cookie" = false ∧
    strContains (lowerStr aboutU.path) "privacy" = false ∧
    strContains (lowerStr aboutU.path) "license" = false :=
  claim_denylist resolveEx docEx seedU aboutU (by decide)

/-- C3: every link the extractor returns has exactly the base URL's
host, and consequently every link returned during a crawl started at
`seed` has the seed's host. -/
theorem claim_domain_scoping (resolve : Url → String → Option Url) (fetch : Url → FetchResult)
    (maxPages : Nat) (seed : Url) :
    (∀ (doc : Document) (base link : Url),
      link ∈ extractLinksCore resolve doc base → link.host = base.host) ∧
    (∀ st, Reachable resolve fetch maxPages (initState seed) st →
      ∀ l ∈ st.linkLog, l.host = seed.host) := by
  have hbase : ∀ (doc : Document) (base link : Url),
      link ∈ extractLinksCore resolve doc base → link.host = base.host := by
    intro doc base link h
    rcases mem_extractLinksCore resolve doc base link h with ⟨e, he⟩
    exact (linkOf_props resolve base e link he).1
  refine ⟨hbase, ?_⟩
  have hinv : ∀ st, Reachable resolve fetch maxPages (initState seed) st →
      (∀ u ∈ st.queue, u.host = seed.host) ∧ (∀ l ∈ st.linkLog, l.host = seed.host) := by
    refine reachable_inv resolve fetch maxPages _ _ ?_ ?_ ?_
    · intro st url rest hP hq hc
      have hurl : url.host = seed.host :=
        hP.1 url (by rw [hq]; exact List.mem_cons_self url rest)
      have hrest : ∀ u ∈ rest, u.host = seed.host := fun u hu =>
        hP.1 u (by rw [hq]; exact List.mem_cons_of_mem url hu)
      rcases processUrl_cases resolve fetch { st with queue := rest } url with
        ⟨_, heq⟩ | ⟨_, doc, _, heq⟩ | ⟨_, _, heq⟩
      · rw [heq]
        exact ⟨hrest, hP.2⟩
      · rw [heq]
        constructor
        · intro u hu
          rcases mem_enqueueLinks _ _ _ u hu with h | h
          · exact hrest u h
          · rw [hbase doc url u h, hurl]
        · intro l hl
          rcases List.mem_append.mp hl with h | h
          · exact hP.2 l h
          · rw [hbase doc url l h, hurl]
      · rw [heq]
        exact ⟨hrest, hP.2⟩
    · intro st url rest hP hq
      exact ⟨fun u hu => hP.1 u (by rw [hq]; exact List.mem_cons_of_mem url hu), hP.2⟩
    · constructor
      · intro u hu
        have : u = seed := by simpa [initState] using hu
        rw [this]
      · intro l hl
        simp [initState] at hl
  intro st hst
  exact (hinv st hst).2

theorem claim_domain_scoping_w : Url.host aboutU = Url.host seedU :=
  (claim_domain_scoping resolveEx fetchEx 1 seedU).2
    (processUrl resolveEx fetchEx { initState seedU with queue := [] } seedU)
    (Reachable.step (initState seedU) seedU [] Reachable.refl rfl (by decide))
    aboutU (by decide)

/-- C2: within a run each URL is fetched at most once: a popped URL
already in the visited set leaves the state untouched (no request is
issued), every processed URL is in the visited set afterwards, and the
log of issued requests never repeats a URL. -/
theorem claim_visited_once (resolve : Url → String → Option Url) (fetch : Url → FetchResult)
    (maxPages : Nat) (seed : Url) :
    (∀ st url, url.toStr ∈ st.visited → processUrl resolve fetch st url = st) ∧
    (∀ st url, url.toStr ∈ (processUrl resolve fetch st url).visited) ∧
    (∀ st, Reachable resolve fetch maxPages (initState seed) st → st.fetchLog.Nodup) := by
  refine ⟨?_, ?_, ?_⟩
  · intro st url hv
    rcases processUrl_cases resolve fetch st url with ⟨_, heq⟩ | ⟨hnv, _⟩ | ⟨hnv, _, _⟩
    · exact heq
    · exact absurd hv hnv
    · exact absurd hv hnv
  · intro st url
    rcases processUrl_cases resolve fetch st url with
      ⟨hv, heq⟩ | ⟨_, doc, _, heq⟩ | ⟨_, _, heq⟩
    · rw [heq]; exact hv
    · rw [heq]; exact List.mem_cons_self _ _
    · rw [heq]; exact List.mem_cons_self _ _
  · have hinv : ∀ st, Reachable resolve fetch maxPages (initState seed) st →
        st.fetchLog.Nodup ∧ ∀ u ∈ st.fetchLog, u.toStr ∈ st.visited := by
      refine reachable_inv resolve fetch maxPages _ _ ?_ ?_ ?_
      · intro st url rest hP hq hc
        rcases processUrl_cases resolve fetch { st with queue := rest } url with
          ⟨_, heq⟩ | ⟨hnv, doc, _, heq⟩ | ⟨hnv, _, heq⟩
        · rw [heq]; exact hP
        · rw [heq]
          have hnotin : url ∉ st.fetchLog := fun hmem => hnv (hP.2 url hmem)
          have hdisj : st.fetchLog.Disjoint [url] := by
            intro a ha hb
            rcases List.mem_singleton.mp hb with rfl
            exact hnotin ha
          refine ⟨List.Nodup.append hP.1 (List.nodup_singleton url) hdisj, ?_⟩
          intro u hu
          rcases List.mem_append.mp hu with h | h
          · exact List.mem_cons_of_mem _ (hP.2 u h)
          · rcases List.mem_singleton.mp h with rfl
            exact List.mem_cons_self _ _
        · rw [heq]
          have hnotin : url ∉ st.fetchLog := fun hmem => hnv (hP.2 url hmem)
          have hdisj : st.fetchLog.Disjoint [url] := by
            intro a ha hb
            rcases List.mem_singleton.mp hb with rfl
            exact hnotin ha
          refine ⟨List.Nodup.append hP.1 (List.nodup_singleton url) hdisj, ?_⟩
          intro u hu
          rcases List.mem_append.mp hu with h | h
          · exact List.mem_cons_of_mem _ (hP.2 u h)
          · rcases List.mem_singleton.mp h with rfl
            exact List.mem_cons_self _ _
      · intro st url rest hP hq
        exact hP
      · exact ⟨List.nodup_nil, by simp [initState]⟩
    intro st hst
    exact (hinv st hst).1

theorem claim_visited_once_w :
    processUrl resolveEx fetchEx stVis seedU = stVis ∧
    Url.toStr seedU ∈ (processUrl resolveEx fetchEx (initState seedU) seedU).visited ∧
    (initState seedU).fetchLog.Nodup :=
  ⟨(claim_visited_once resolveEx fetchEx 1 seedU).1 stVis seedU (by decide),
   (claim_visited_once resolveEx fetchEx 1 seedU).2.1 (initState seedU) seedU,
   (claim_visited_once resolveEx fetchEx 1 seedU).2.2 (initState seedU) Reachable.refl⟩

/-- C1: at every point of a crawl run, and in particular at
termination, `pages_scraped` never exceeds `max_pages` and always
equals the number of accumulated pages. -/
theorem claim_cap_invariant (resolve : Url → String → Option Url) (fetch : Url → FetchResult)
    (maxPages : Nat) (seed : Url) :
    (∀ st, Reachable resolve fetch maxPages (initState seed) st →
      st.pagesScraped ≤ maxPages ∧ st.pagesScraped = st.pages.length) ∧
    (∀ fuel st', crawlLoop resolve fetch maxPages fuel (initState seed) = some st' →
      st'.pagesScraped ≤ maxPages ∧ st'.pagesScraped = st'.pages.length) := by
  have hinv : ∀ st, Reachable resolve fetch maxPages (initState seed) st →
      st.pagesScraped ≤ maxPages ∧ st.pagesScraped = st.pages.length := by
    refine reachable_inv resolve fetch maxPages _ _ ?_ ?_ ?_
    · intro st url rest hP hq hc
      rcases processUrl_cases resolve fetch { st with queue := rest } url with
        ⟨_, heq⟩ | ⟨_, doc, _, heq⟩ | ⟨_, _, heq⟩
      · rw [heq]; exact hP
      · rw [heq]
        refine ⟨hc, ?_⟩
        simp [hP.2]
      · rw [heq]; exact hP
    · intro st url rest hP hq
      exact hP
    · exact ⟨Nat.zero_le _, rfl⟩
  refine ⟨hinv, ?_⟩
  intro fuel st' h
  exact hinv st' (crawlLoop_reachable resolve fetch maxPages fuel _ st' h)

theorem claim_cap_invariant_w :
    stFinal.pagesScraped ≤ 1 ∧ stFinal.pagesScraped = stFinal.pages.length :=
  (claim_cap_invariant resolveEx fetchEx 1 seedU).2 5 stFinal (by decide)

/-- C10: at every point of a crawl run the pending queue holds
pairwise-distinct URLs. -/
theorem claim_queue_nodup (resolve : Url → String → Option Url) (fetch : Url → FetchResult)
    (maxPages : Nat) (seed : Url) :
    ∀ st, Reachable resolve fetch maxPages (initState seed) st → st.queue.Nodup := by
  refine reachable_inv resolve fetch maxPages _ _ ?_ ?_ ?_
  · intro st url rest hP hq hc
    have hrest : rest.Nodup := by
      rw [hq] at hP
      exact (List.nodup_cons.mp hP).2
    rcases processUrl_cases resolve fetch { st with queue := rest } url with
      ⟨_, heq⟩ | ⟨_, doc, _, heq⟩ | ⟨_, _, heq⟩
    · rw [heq]; exact hrest
    · rw [heq]
      exact enqueueLinks_nodup _ _ _ hrest
    · rw [heq]; exact hrest
  · intro st url rest hP hq
    rw [hq] at hP
    exact (List.nodup_cons.mp hP).2
  · simp [initState]

theorem claim_queue_nodup_w :
    (processUrl resolveEx fetchEx { initState seedU with queue := [] } seedU).queue.Nodup :=
  claim_queue_nodup resolveEx fetchEx 1 seedU _
    (Reachable.step (initState seedU) seedU [] Reachable.refl rfl (by decide))

/-- C6: when fetching the seed fails (transport error or non-success
status), the crawl terminates and its output is the empty page list —
an ordinary result, not an error. -/
theorem claim_seed_failure (resolve : Url → String → Option Url) (fetch : Url → FetchResult)
    (maxPages : Nat) (seed : Url) (fuel : Nat)
    (hf : ∀ d, fetch seed ≠ FetchResult.success d) (hfuel : 2 ≤ fuel) :
    (crawlLoop resolve fetch maxPages fuel (initState seed)).map (fun st => st.pages) =
      some [] := by
  have hproc : processUrl resolve fetch { initState seed with queue := [] } seed =
      { queue := [], visited := [seed.toStr], pages := [], pagesScraped := 0,
        fetchLog := [seed], linkLog := [] } := by
    rcases processUrl_cases resolve fetch { initState seed with queue := [] } seed with
      ⟨hv, _⟩ | ⟨_, d, hfd, _⟩ | ⟨_, _, heq⟩
    · simp [initState] at hv
    · exact absurd hfd (hf d)
    · rw [heq]
      rfl
  obtain ⟨n, rfl⟩ : ∃ n, fuel = n + 2 := ⟨fuel - 2, by omega⟩
  by_cases hc : maxPages ≤ (initState seed).pagesScraped
  · rw [show n + 2 = (n + 1) + 1 from rfl]
    simp only [crawlLoop, show (initState seed).queue = seed :: [] from rfl, if_pos hc]
    rfl
  · rw [show n + 2 = (n + 1) + 1 from rfl]
    simp only [crawlLoop, show (initState seed).queue = seed :: [] from rfl, if_neg hc]
    rw [hproc]
    simp only [crawlLoop]
    rfl

theorem claim_seed_failure_w :
    (crawlLoop resolveEx fetch500 200 5 (initState seedU)).map (fun st => st.pages) =
      some [] :=
  claim_seed_failure resolveEx fetch500 200 seedU 5
    (fun d hd => FetchResult.noConfusion hd) (by decide)
